import Mathlib

/-!
Verification model of the RSS "TV channel" server (`src/server.js`).

The three core components are shallowly embedded as executable Lean
functions translated from the JavaScript source:

* the URL validator (`validateRssUrl`, `isPrivateIpLiteral`, `passesAllowlist`);
* the feed cache (`getFeed`);
* the episode normalizer (`pickMedia`, `pickImageUrl`, `inferKind`,
  `safeTruncate`, `stripHtml`, and the `/api/episodes.json` mapping).

JavaScript strings are modelled as Lean `String`/`List Char`; platform
primitives used by the source (`String.prototype.split`, `parseInt`,
`net.isIP`, the WHATWG `URL` parser, `Map`, `Date.now`) are modelled by
small executable definitions, each documented at its declaration.
-/

namespace PodTv

/-! ## Models of JavaScript string primitives -/

/-- Model of the JavaScript whitespace class onto which the source's
regular expressions act. The source only matches whitespace via `\s`;
we model the ASCII members (space, tab, LF, VT, FF, CR), which covers
every feed string the claims reason about. -/
def isJsSpace (c : Char) : Bool :=
  c = ' ' || c = '\t' || c = '\n' || c = '\x0b' || c = '\x0c' || c = '\r'

/-- Model of `String.prototype.toLowerCase` restricted to ASCII case
mapping (hostnames and MIME types in the source are ASCII). -/
def jsToLower (s : String) : String :=
  String.mk (s.toList.map Char.toLower)

/-- Model of `String.prototype.startsWith`. -/
def jsStartsWith (s pre : String) : Bool :=
  pre.toList.isPrefixOf s.toList

/-- Model of `String.prototype.endsWith`. -/
def jsEndsWith (s suf : String) : Bool :=
  suf.toList.isSuffixOf s.toList

/-- Model of `String.prototype.split` with a single-character separator. -/
def splitOnChar (sep : Char) : List Char → List (List Char)
  | [] => [[]]
  | c :: cs =>
    let r := splitOnChar sep cs
    if c = sep then [] :: r
    else
      match r with
      | [] => [[c]]
      | g :: gs => (c :: g) :: gs

/-- Decimal value of a digit character. -/
def digitVal (c : Char) : Nat := c.toNat - 48

/-- Accumulating decimal value of a digit list (most significant first). -/
def valAux (acc : Nat) : List Char → Nat
  | [] => acc
  | c :: cs => valAux (acc * 10 + digitVal c) cs

/-- Decimal value of a digit list. -/
def digitsVal (l : List Char) : Nat := valAux 0 l

/-- Model of JavaScript `parseInt(s, 10)` on the strings reachable here
(the dotted-quad labels admitted by `net.isIP`, which are pure digit
runs): the longest leading digit run is converted, `NaN` (no digits) is
`none`. -/
def parseIntDec (s : String) : Option Nat :=
  let ds := s.toList.takeWhile Char.isDigit
  if ds.isEmpty then none else some (digitsVal ds)

/-- Character for a decimal digit value (values above nine clamp to `'9'`,
matching how the function is only ever used on values below ten). -/
def digitChar (n : Nat) : Char :=
  if n = 0 then '0' else if n = 1 then '1' else if n = 2 then '2'
  else if n = 3 then '3' else if n = 4 then '4' else if n = 5 then '5'
  else if n = 6 then '6' else if n = 7 then '7' else if n = 8 then '8'
  else '9'

/-- Decimal digit expansion of a natural number, most significant digit
first, driven by explicit fuel so that the definition is structurally
recursive (the fuel `n + 1` always suffices). -/
def natDigitsAux : Nat → Nat → List Char
  | 0, _ => []
  | fuel + 1, n =>
    if n < 10 then [digitChar n]
    else natDigitsAux fuel (n / 10) ++ [digitChar (n % 10)]

/-- Decimal digit expansion of a natural number (no leading zeros). -/
def natDigits (n : Nat) : List Char := natDigitsAux (n + 1) n

/-- Canonical dotted-quad serialization of an IPv4 address, as produced
by the WHATWG URL parser for literal-IPv4 hosts. -/
def ip4Chars (a b c d : Nat) : List Char :=
  natDigits a ++ '.' :: (natDigits b ++ '.' :: (natDigits c ++ '.' :: natDigits d))

/-- String form of `ip4Chars`. -/
def ip4String (a b c d : Nat) : String := String.mk (ip4Chars a b c d)

/-! ## Model of `net.isIP` -/

/-- Hexadecimal digit test. -/
def isHexDigitChar (c : Char) : Bool :=
  c.isDigit || ('a' ≤ c && c ≤ 'f') || ('A' ≤ c && c ≤ 'F')

/-- One dotted-quad label as accepted by Node's `net.isIPv4`: a nonempty
run of at most three digits, no leading zero, value at most 255. -/
def validOctet (g : List Char) : Bool :=
  !g.isEmpty && g.all Char.isDigit && g.length ≤ 3 &&
    (g.length = 1 || g.headD ' ' ≠ '0') && digitsVal g ≤ 255

/-- Model of Node's `net.isIPv4`. -/
def isIPv4String (s : String) : Bool :=
  let gs := splitOnChar '.' s.toList
  gs.length = 4 && gs.all validOctet

/-- First occurrence of a double colon, splitting the list around it. -/
def splitOnDoubleColon : List Char → Option (List Char × List Char)
  | ':' :: ':' :: rest => some ([], rest)
  | c :: rest => (splitOnDoubleColon rest).map (fun p => (c :: p.1, p.2))
  | [] => none

/-- The colon-separated hextets of a fragment (none for the empty
fragment, as on either side of a bare `::`). -/
def hextets (l : List Char) : List (List Char) :=
  if l.isEmpty then [] else splitOnChar ':' l

/-- Every hextet is one to four hexadecimal digits. -/
def validHextets (gs : List (List Char)) : Bool :=
  gs.all (fun g => !g.isEmpty && g.length ≤ 4 && g.all isHexDigitChar)

/-- Model of Node's `net.isIPv6` restricted to colon-hex forms (no
embedded dotted-quad tail, no zone id — no string the server ever
tests an address of those shapes in the verified claims): either eight
hextets, or a single `::` compression with at most seven hextets
around it. -/
def isIPv6String (s : String) : Bool :=
  let l := s.toList
  match splitOnDoubleColon l with
  | none =>
    let gs := splitOnChar ':' l
    gs.length = 8 && validHextets gs
  | some (a, b) =>
    (splitOnDoubleColon (a ++ b)).isNone &&
      validHextets (hextets a) && validHextets (hextets b) &&
      (hextets a).length + (hextets b).length ≤ 7

/-- Model of Node's `net.isIP`: `4` for an IPv4 literal, `6` for an IPv6
literal, `0` otherwise. -/
def netIsIP (s : String) : Nat :=
  if isIPv4String s then 4 else if isIPv6String s then 6 else 0

/-! ## URL validator (`server.js` lines 137–211) -/

/-- Element of a JavaScript number list read with possible `NaN`:
comparisons against `NaN` are false, modelled on `Option Nat`. -/
def numEq (x : Option Nat) (k : Nat) : Bool :=
  match x with
  | some v => v = k
  | none => false

/-- `x >= k` with `NaN` comparing false. -/
def numGe (x : Option Nat) (k : Nat) : Bool :=
  match x with
  | some v => k ≤ v
  | none => false

/-- `x <= k` with `NaN` comparing false. -/
def numLe (x : Option Nat) (k : Nat) : Bool :=
  match x with
  | some v => v ≤ k
  | none => false

/-- Array element access `parts[i]` (`undefined`, i.e. `none`, past the
end), for the destructuring `const [a, b] = parts`. -/
def nthNum (l : List (Option Nat)) (i : Nat) : Option Nat :=
  (l.get? i).getD none

/-- Translation of `isPrivateIpLiteral(hostname)` (`server.js` 137–172):
literal-IP check of the private/loopback/link-local/CGNAT ranges. -/
def isPrivateIpLiteral (hostname : String) : Bool :=
  if hostname = "" then false
  else
    let ipVersion := netIsIP hostname
    if ipVersion = 0 then false
    else if ipVersion = 4 then
      let parts := (splitOnChar '.' hostname.toList).map
        (fun p => parseIntDec (String.mk p))
      let a := nthNum parts 0
      let b := nthNum parts 1
      if numEq a 10 then true
      else if numEq a 172 && numGe b 16 && numLe b 31 then true
      else if numEq a 192 && numEq b 168 then true
      else if numEq a 127 then true
      else if numEq a 169 && numEq b 254 then true
      else if numEq a 0 then true
      else if numEq a 100 && numGe b 64 && numLe b 127 then true
      else false
    else
      let h := jsToLower hostname
      if h = "::1" then true
      else if jsStartsWith h "fe80:" then true
      else if jsStartsWith h "fc" || jsStartsWith h "fd" then true
      else false

/-- Translation of `passesAllowlist(hostname)` (`server.js` 174–178),
with the configured `RSS_DOMAIN_ALLOWLIST` passed explicitly (the
source reads it from a module-level constant parsed from the
environment; entries are already trimmed and lowercased there). -/
def passesAllowlist (allowlist : List String) (hostname : String) : Bool :=
  if allowlist.length = 0 then true
  else
    let h := jsToLower hostname
    allowlist.any (fun allowed => h = allowed || jsEndsWith h ("." ++ allowed))

/-- Outcome of a `new URL(inputUrl)` call, modelling the WHATWG URL
parser as an external primitive: `protocol` includes the trailing colon
(`"http:"`), `hostname` is the serialized host (lowercased domain,
canonical dotted quad for IPv4 literals, bracketed form such as
`"[::1]"` for IPv6 literals), and `serialized` is `url.toString()`. -/
structure ParsedUrl where
  protocol : String
  hostname : String
  serialized : String
deriving DecidableEq, Repr

/-- Result shape of `validateRssUrl`: `{ok:false, reason}` or
`{ok:true, url}`. -/
inductive ValidationResult where
  | rejected (reason : String)
  | accepted (url : String)
deriving DecidableEq, Repr

/-- Translation of `validateRssUrl(inputUrl)` (`server.js` 180–211).
The `new URL` call is modelled by taking its outcome (`none` for a
parse failure) as the argument; the allowlist is passed explicitly as
in `passesAllowlist`. -/
def validateRssUrl (allowlist : List String) (parsed : Option ParsedUrl) :
    ValidationResult :=
  match parsed with
  | none => .rejected "Invalid URL"
  | some url =>
    if ¬(url.protocol = "http:" ∨ url.protocol = "https:") then
      .rejected "Only http/https URLs are allowed"
    else
      let hostname := url.hostname
      let h := jsToLower hostname
      if h = "localhost" ∨ jsEndsWith h ".localhost" ∨ jsEndsWith h ".local" then
        .rejected "Localhost/local domains are not allowed"
      else if isPrivateIpLiteral hostname then
        .rejected "Private IP addresses are not allowed"
      else if ¬passesAllowlist allowlist hostname then
        .rejected "Hostname not in allowlist"
      else
        .accepted url.serialized

/-! ## Feed cache (`server.js` 213–228) -/

/-- One entry of the `cache` map: `{ at, feed }` (`at` is a Lean keyword,
so the field is `atMs`). Timestamps are in `Int` milliseconds, after
`Date.now()`. -/
structure CacheEntry (Feed : Type) where
  atMs : Int
  feed : Feed
deriving DecidableEq, Repr

/-- The `cache` `Map`, modelled as a function from keys to optional
entries (`Map.get` / `Map.set`). -/
def FeedCache (Feed : Type) : Type := String → Option (CacheEntry Feed)

/-- The empty cache (`new Map()`). -/
def emptyCache (Feed : Type) : FeedCache Feed := fun _ => none

/-- Outcome of one `getFeed` call: the returned (or thrown) value, the
cache state after the call, and whether `parser.parseURL` was invoked. -/
structure GetFeedOut (Err Feed : Type) where
  result : Except Err Feed
  cache : FeedCache Feed
  fetched : Bool

/-- Translation of `getFeed(rssUrl, force)` (`server.js` 216–228). The
collaborators are passed explicitly: `hash` models `stableHash`
(sha-256 digest prefix — injected, any function of the URL string),
`fetch` models `parser.parseURL` (its rejection is the thrown error),
`ttlMs` is `CACHE_TTL_MS` and `now` is `Date.now()` at this call.
A stored entry's `feed` field is a parsed feed object, hence truthy,
so the source's `existing.feed` conjunct holds whenever the entry
exists. -/
def getFeed {Err Feed : Type} (hash : String → String)
    (fetch : String → Except Err Feed) (ttlMs : Int)
    (cache : FeedCache Feed) (now : Int) (rssUrl : String) (force : Bool) :
    GetFeedOut Err Feed :=
  let key := hash rssUrl
  let hit : Option Feed :=
    match cache key with
    | some existing =>
      if !force && decide (now - existing.atMs < ttlMs) then some existing.feed
      else none
    | none => none
  match hit with
  | some f => ⟨.ok f, cache, false⟩
  | none =>
    match fetch rssUrl with
    | .ok feed => ⟨.ok feed, fun k => if k = key then some ⟨now, feed⟩ else cache k, true⟩
    | .error e => ⟨.error e, cache, true⟩

/-! ## Episode normalizer (`server.js` 73–131 and 252–276) -/

/-- JavaScript truthiness of a possibly-absent string field:
`undefined` and the empty string are falsy. -/
def truthyS : Option String → Bool
  | none => false
  | some s => s ≠ ""

/-- JavaScript `x || ""` on a possibly-absent string. -/
def jsOrEmpty (x : Option String) : String := x.getD ""

/-- The `$` attribute object of a `media:content` or `media:thumbnail`
array element as rss-parser produces it. -/
structure MediaAttrs where
  url : Option String
  typ : Option String
deriving DecidableEq, Repr

/-- One `media:content` / `media:thumbnail` array element; the `$`
attribute object may be absent. -/
structure MediaEntry where
  attrs : Option MediaAttrs
deriving DecidableEq, Repr

/-- An RSS `enclosure` as rss-parser produces it. -/
structure Enclosure where
  url : Option String
  typ : Option String
deriving DecidableEq, Repr

/-- An `itunes:image` value: either a bare string or an object carrying
`href` and/or `url` fields. -/
inductive ItunesImage where
  | str (s : String)
  | obj (href : Option String) (url : Option String)
deriving DecidableEq, Repr

/-- A raw feed item as consumed by the episode mapping: every field is
optional, matching the duck-typed rss-parser item shape. `isoDate`,
when present, is the valid ISO timestamp rss-parser derives from a
parseable `pubDate`. -/
structure RawItem where
  title : Option String := none
  enclosure : Option Enclosure := none
  mediaContent : List MediaEntry := []
  mediaThumbnail : List MediaEntry := []
  itunesImage : Option ItunesImage := none
  duration : Option String := none
  isoDate : Option String := none
  pubDate : Option String := none
  link : Option String := none
  content : Option String := none
  contentSnippet : Option String := none
deriving DecidableEq, Repr

/-- Translation of `stripHtml`'s regular expression `/<[^>]*>?/gm`
applied at one `<`: drop up to and including the next `>` (or
everything, when no `>` follows). -/
def dropTag (l : List Char) : List Char :=
  match l.dropWhile (fun c => c ≠ '>') with
  | [] => []
  | _ :: rest => rest

/-- Global replacement of `/<[^>]*>?/gm` by the empty string, with
explicit fuel for structural recursion (`l.length` always suffices). -/
def stripCoreAux : Nat → List Char → List Char
  | 0, _ => []
  | fuel + 1, l =>
    match l with
    | [] => []
    | c :: rest =>
      if c = '<' then stripCoreAux fuel (dropTag rest)
      else c :: stripCoreAux fuel rest

/-- Translation of `stripHtml(str)` (`server.js` 73–76). -/
def stripHtml (str : String) : String :=
  if str = "" then ""
  else String.mk (stripCoreAux str.toList.length str.toList)

/-- Translation of `.replace(/\s+/g, " ")`: each maximal whitespace run
becomes one space. The boolean records whether the previous character
was inside a whitespace run. -/
def collapseGo : Bool → List Char → List Char
  | _, [] => []
  | prevWs, c :: rest =>
    if isJsSpace c then
      if prevWs then collapseGo true rest
      else ' ' :: collapseGo true rest
    else c :: collapseGo false rest

/-- Whitespace-run collapse on a string. -/
def collapseWs (l : List Char) : List Char := collapseGo false l

/-- Model of `String.prototype.trim`. -/
def jsTrimList (l : List Char) : List Char :=
  ((l.dropWhile isJsSpace).reverse.dropWhile isJsSpace).reverse

/-- `jsTrimList` on a string. -/
def jsTrim (s : String) : String := String.mk (jsTrimList s.toList)

/-- Translation of `safeTruncate(str, n)` (`server.js` 78–82);
`s.slice(0, n)` is `List.take n`. -/
def safeTruncate (str : String) (n : Nat) : String :=
  let s := jsTrim (String.mk (collapseWs (stripHtml str).toList))
  if s = "" then ""
  else if n < s.length then jsTrim (String.mk (s.toList.take n)) ++ "…"
  else s

/-- Model of `String.prototype.replace` with a plain (nonempty) string
pattern: only the first occurrence is replaced. -/
def jsReplaceOnce (pat rep : List Char) : List Char → List Char
  | [] => []
  | c :: cs =>
    if pat.isPrefixOf (c :: cs) then rep ++ (c :: cs).drop pat.length
    else c :: jsReplaceOnce pat rep cs

/-- Translation of `normalizeToHttps(url)` (`server.js` 84–88). -/
def normalizeToHttps (url : String) : String :=
  if url = "" then ""
  else if jsStartsWith url "http://" then
    String.mk (jsReplaceOnce "http://".toList "https://".toList url.toList)
  else url

/-- The `item.mediaThumbnail && item.mediaThumbnail[0] &&
item.mediaThumbnail[0].$ && item.mediaThumbnail[0].$.url` chain. -/
def thumbUrl (it : RawItem) : Option String :=
  (it.mediaThumbnail.head?.bind MediaEntry.attrs).bind MediaAttrs.url

/-- Translation of `pickImageUrl(item)` (`server.js` 90–105). The
`typeof item.itunesImage === "string"` branch is the `.str` case; an
empty `.str` is falsy at the enclosing `if (item.itunesImage)` test. -/
def pickImageUrl (it : RawItem) : String :=
  let tn := thumbUrl it
  if truthyS tn then normalizeToHttps (jsOrEmpty tn)
  else
    match it.itunesImage with
    | none => ""
    | some (.str s) => if s ≠ "" then normalizeToHttps s else ""
    | some (.obj href url) =>
      if truthyS href then normalizeToHttps (jsOrEmpty href)
      else if truthyS url then normalizeToHttps (jsOrEmpty url)
      else ""

/-- The `{url, type}` pair returned by `pickMedia`. -/
structure Media where
  url : String
  typ : String
deriving DecidableEq, Repr

/-- The `item.enclosure && item.enclosure.url` chain. -/
def encUrl (it : RawItem) : Option String :=
  it.enclosure.bind Enclosure.url

/-- The `item.mediaContent && item.mediaContent[0]` then `mc.$ && mc.$.url`
chain. -/
def mcAttrs (it : RawItem) : Option MediaAttrs :=
  it.mediaContent.head?.bind MediaEntry.attrs

/-- Translation of `pickMedia(item)` (`server.js` 107–116). -/
def pickMedia (it : RawItem) : Media :=
  if truthyS (encUrl it) then
    { url := jsOrEmpty (encUrl it)
      typ := jsOrEmpty (it.enclosure.bind Enclosure.typ) }
  else if truthyS ((mcAttrs it).bind MediaAttrs.url) then
    { url := jsOrEmpty ((mcAttrs it).bind MediaAttrs.url)
      typ := jsOrEmpty ((mcAttrs it).bind MediaAttrs.typ) }
  else
    { url := jsOrEmpty it.link, typ := "" }

/-- The `(\?|#|$)` delimiter after an extension: end of string, a query,
or a fragment. -/
def delimOk : List Char → Bool
  | [] => true
  | c :: _ => c = '?' || c = '#'

/-- Whether one of the alternatives of `\.(e1|e2|…)(\?|#|$)` matches at
the head of `l`. -/
def extHere (exts : List (List Char)) (l : List Char) : Bool :=
  match l with
  | c :: rest =>
    c = '.' && exts.any (fun e => e.isPrefixOf rest && delimOk (rest.drop e.length))
  | [] => false

/-- Model of `u.match(/\.(e1|e2|…)(\?|#|$)/) !== null`: the pattern
matches at some position. -/
def extScan (exts : List (List Char)) : List Char → Bool
  | [] => false
  | c :: rest => extHere exts (c :: rest) || extScan exts rest

/-- Scan of every suffix of the haystack for the needle at its head. -/
def includesGo (sub : List Char) : List Char → Bool
  | [] => sub.isPrefixOf []
  | c :: rest => sub.isPrefixOf (c :: rest) || includesGo sub rest

/-- Model of `String.prototype.includes`. -/
def jsIncludes (s sub : String) : Bool := includesGo sub.toList s.toList

/-- Translation of `inferKind(mediaUrl, mediaType)` (`server.js`
118–131); the kind is the string `"audio"` or `"video"` as in the
source. -/
def inferKind (mediaUrl mediaType : String) : String :=
  let u := jsToLower mediaUrl
  let t := jsToLower mediaType
  if jsStartsWith t "video/" then "video"
  else if jsStartsWith t "audio/" then "audio"
  else if jsIncludes u ".m3u8" then "video"
  else if extScan ["mp4".toList, "webm".toList, "mov".toList] u.toList then "video"
  else if extScan ["mp3".toList, "m4a".toList, "aac".toList, "ogg".toList, "wav".toList] u.toList then "audio"
  else "audio"

/-- One normalized episode of the `/api/episodes.json` response
(`server.js` 263–274). -/
structure EpisodeRecord where
  id : Nat
  title : String
  date : String
  description : String
  mediaUrl : String
  mediaType : String
  kind : String
  imageUrl : String
  duration : String
  link : String
deriving DecidableEq, Repr

/-- The body of `.map((it, idx) => …)` in the `/api/episodes.json`
handler (`server.js` 254–275). `toIso` models
`(s) => new Date(s).toISOString()` on the valid ISO timestamps
rss-parser stores in `isoDate`. -/
def mkRecord (toIso : String → String) (idx : Nat) (it : RawItem) :
    EpisodeRecord :=
  let media := pickMedia it
  let mediaUrl := media.url
  let kind := inferKind mediaUrl media.typ
  let dateStr :=
    if truthyS it.isoDate then toIso (jsOrEmpty it.isoDate)
    else jsOrEmpty it.pubDate
  { id := idx
    title := if truthyS it.title then jsOrEmpty it.title else "Untitled Episode"
    date := dateStr
    description :=
      safeTruncate
        (if truthyS it.contentSnippet then jsOrEmpty it.contentSnippet
         else jsOrEmpty it.content) 1000
    mediaUrl := mediaUrl
    mediaType := media.typ
    kind := kind
    imageUrl := pickImageUrl it
    duration := jsOrEmpty it.duration
    link := jsOrEmpty it.link }

/-- The `.map((it, idx) => …)` combinator with its running index. -/
def mapWithIdx (f : Nat → RawItem → EpisodeRecord) :
    Nat → List RawItem → List EpisodeRecord
  | _, [] => []
  | i, it :: rest => f i it :: mapWithIdx f (i + 1) rest

/-- Translation of the episode pipeline of the `/api/episodes.json`
handler (`server.js` 252–276):
`(feed.items || []).slice(0, EP_LIMIT).map((it, idx) => …).filter((e) => !!e.mediaUrl)`,
with `EP_LIMIT` passed as `limit`. -/
def episodes (toIso : String → String) (items : List RawItem) (limit : Nat) :
    List EpisodeRecord :=
  (mapWithIdx (mkRecord toIso) 0 (items.take limit)).filter
    (fun e => e.mediaUrl ≠ "")

/-! ## Declarative companions used to state the claims -/

/-- The ten decimal digit characters. -/
def decDigits : List Char := ['0','1','2','3','4','5','6','7','8','9']

/-- Declarative reading of the regex substring test performed by
`u.includes(".m3u8")`: the needle occurs contiguously somewhere. -/
def ContainsSub (sub l : List Char) : Prop := ∃ p q, l = p ++ sub ++ q

/-- Declarative reading of the spec's extension heuristic: some
extension in `exts` occurs immediately after a dot and immediately
before the end of the string, a query, or a fragment. -/
def HasExtAtBoundary (exts : List (List Char)) (l : List Char) : Prop :=
  ∃ p e q, e ∈ exts ∧ l = p ++ '.' :: (e ++ q) ∧
    (q = [] ∨ (∃ r, q = '?' :: r) ∨ (∃ r, q = '#' :: r))

/-! ## Generic bridge lemmas -/

theorem isPrefixOf_true_iff (l1 l2 : List Char) :
    l1.isPrefixOf l2 = true ↔ l1 <+: l2 := by
  induction l1 generalizing l2 with
  | nil => simp [List.isPrefixOf]
  | cons a as ih =>
    cases l2 with
    | nil => simp [List.isPrefixOf]
    | cons b bs =>
      rw [show (a :: as).isPrefixOf (b :: bs) = (a == b && as.isPrefixOf bs)
        from rfl]
      rw [Bool.and_eq_true_iff, ih, List.cons_prefix_cons]
      simp

theorem isSuffixOf_true_iff (l1 l2 : List Char) :
    l1.isSuffixOf l2 = true ↔ l1 <:+ l2 := by
  rw [show l1.isSuffixOf l2 = l1.reverse.isPrefixOf l2.reverse from rfl,
    isPrefixOf_true_iff]
  exact List.reverse_prefix

theorem jsStartsWith_iff (s pre : String) :
    jsStartsWith s pre = true ↔ pre.toList <+: s.toList := by
  unfold jsStartsWith
  exact isPrefixOf_true_iff _ _

theorem bool_eq_false_of_iff {b : Bool} {P : Prop}
    (hiff : b = true ↔ P) (h : ¬P) : b = false :=
  Bool.eq_false_iff.mpr (fun hb => h (hiff.mp hb))

theorem map_eq_self_of_fix {l : List Char} {f : Char → Char}
    (h : ∀ x ∈ l, f x = x) : l.map f = l := by
  induction l with
  | nil => rfl
  | cons c cs ih =>
    rw [List.map_cons, h c (List.mem_cons_self c cs),
      ih (fun x hx => h x (List.mem_cons_of_mem c hx))]

/-! ## Lemmas on the https upgrade (claim C7) -/

theorem jsReplaceOnce_head (pat rep : List Char) (c : Char) (cs : List Char)
    (h : pat.isPrefixOf (c :: cs) = true) :
    jsReplaceOnce pat rep (c :: cs) = rep ++ (c :: cs).drop pat.length := by
  unfold jsReplaceOnce
  rw [if_pos h]

theorem startsWith_http_ne_empty (url : String)
    (h : jsStartsWith url "http://" = true) : url ≠ "" := by
  intro he
  rw [he] at h
  simp [jsStartsWith] at h

theorem normalizeToHttps_of_http (url : String)
    (h : jsStartsWith url "http://" = true) :
    normalizeToHttps url = String.mk ("https://".toList ++ url.toList.drop 7) := by
  have hne : url ≠ "" := startsWith_http_ne_empty url h
  unfold normalizeToHttps
  rw [if_neg hne, if_pos h]
  cases hl : url.toList with
  | nil => exact absurd (String.ext hl) hne
  | cons c cs =>
    unfold jsStartsWith at h
    rw [hl] at h
    rw [jsReplaceOnce_head _ _ c cs h]
    rfl

theorem normalizeToHttps_of_not_http (url : String)
    (h : jsStartsWith url "http://" = false) :
    normalizeToHttps url = url := by
  unfold normalizeToHttps
  split_ifs with h1 h2
  · exact h1.symm
  · rw [h2] at h
    exact absurd h (by simp)
  · rfl

theorem not_http_head_of_https (rest : List Char) :
    "http://".toList.isPrefixOf ('h' :: 't' :: 't' :: 'p' :: 's' :: rest) = false := by
  simp [List.isPrefixOf]

theorem normalizeToHttps_not_http (s : String) :
    jsStartsWith (normalizeToHttps s) "http://" = false := by
  cases h : jsStartsWith s "http://" with
  | true =>
    rw [normalizeToHttps_of_http s h]
    unfold jsStartsWith
    exact not_http_head_of_https _
  | false =>
    rw [normalizeToHttps_of_not_http s h]
    exact h

theorem pickImageUrl_not_http (it : RawItem) :
    jsStartsWith (pickImageUrl it) "http://" = false := by
  simp only [pickImageUrl]
  split_ifs with h1
  · exact normalizeToHttps_not_http _
  · cases him : it.itunesImage with
    | none => decide
    | some img =>
      cases img with
      | str s =>
        simp only []
        split_ifs with h2
        · exact normalizeToHttps_not_http _
        · decide
      | obj href url =>
        simp only []
        split_ifs with h2 h3
        · exact normalizeToHttps_not_http _
        · exact normalizeToHttps_not_http _
        · decide

/-! ## Lemmas on the episode mapping (claims C5 and C9) -/

theorem mapWithIdx_mem (toIso : String → String) (start : Nat)
    (l : List RawItem) (e : EpisodeRecord)
    (h : e ∈ mapWithIdx (mkRecord toIso) start l) :
    ∃ j, ∃ hj : j < l.length,
      e.id = start + j ∧ e = mkRecord toIso (start + j) (l.get ⟨j, hj⟩) := by
  induction l generalizing start with
  | nil => simp [mapWithIdx] at h
  | cons it rest ih =>
    rw [mapWithIdx] at h
    rcases List.mem_cons.mp h with he | he
    · have hid : (mkRecord toIso start it).id = start := rfl
      refine ⟨0, by simp, by rw [he, hid, Nat.add_zero], by simpa using he⟩
    · rcases ih (start + 1) he with ⟨j, hj, hid, heq⟩
      refine ⟨j + 1, by simpa using hj, ?_, ?_⟩
      · rw [hid]
        omega
      · have hh : start + (j + 1) = start + 1 + j := by omega
        rw [hh]
        simpa using heq

theorem mapWithIdx_id_ge (toIso : String → String) (start : Nat)
    (l : List RawItem) :
    ∀ e ∈ mapWithIdx (mkRecord toIso) start l, start ≤ e.id := by
  intro e he
  rcases mapWithIdx_mem toIso start l e he with ⟨j, hj, hid, -⟩
  omega

theorem mapWithIdx_pairwise (toIso : String → String) (start : Nat)
    (l : List RawItem) :
    (mapWithIdx (mkRecord toIso) start l).Pairwise
      (fun e1 e2 => e1.id < e2.id) := by
  induction l generalizing start with
  | nil => simp [mapWithIdx]
  | cons it rest ih =>
    rw [mapWithIdx]
    refine List.Pairwise.cons ?_ (ih (start + 1))
    intro e he
    have hge := mapWithIdx_id_ge toIso (start + 1) rest e he
    show (mkRecord toIso start it).id < e.id
    have hid : (mkRecord toIso start it).id = start := rfl
    omega

theorem jsOrEmpty_of_not_truthy (x : Option String) (h : truthyS x = false) :
    jsOrEmpty x = "" := by
  cases x with
  | none => rfl
  | some s =>
    have hs : s = "" := by simpa [truthyS] using h
    simp [jsOrEmpty, hs]

/-! ## Lemmas on kind inference (claim C6) -/

theorem delimOk_iff (q : List Char) :
    delimOk q = true ↔
      (q = [] ∨ (∃ r, q = '?' :: r) ∨ (∃ r, q = '#' :: r)) := by
  cases q with
  | nil => simp [delimOk]
  | cons c cs =>
    simp only [delimOk, Bool.or_eq_true_iff, decide_eq_true_eq]
    constructor
    · rintro (h | h)
      · subst h
        exact Or.inr (Or.inl ⟨cs, rfl⟩)
      · subst h
        exact Or.inr (Or.inr ⟨cs, rfl⟩)
    · rintro (h | ⟨r, hr⟩ | ⟨r, hr⟩)
      · exact absurd h (by simp)
      · cases hr
        exact Or.inl rfl
      · cases hr
        exact Or.inr rfl

theorem extHere_iff (exts : List (List Char)) (l : List Char) :
    extHere exts l = true ↔
      ∃ e ∈ exts, ∃ q, l = '.' :: (e ++ q) ∧
        (q = [] ∨ (∃ r, q = '?' :: r) ∨ (∃ r, q = '#' :: r)) := by
  cases l with
  | nil => simp [extHere]
  | cons c rest =>
    simp only [extHere, Bool.and_eq_true_iff, decide_eq_true_eq,
      List.any_eq_true]
    constructor
    · rintro ⟨hc, e, hmem, hpre, hdelim⟩
      rcases (isPrefixOf_true_iff _ _).mp hpre with ⟨q, hq⟩
      refine ⟨e, hmem, q, ?_, ?_⟩
      · rw [hc, hq]
      · have hdrop : rest.drop e.length = q := by
          rw [← hq, List.drop_left]
        rw [hdrop] at hdelim
        exact (delimOk_iff q).mp hdelim
    · rintro ⟨e, hmem, q, heq, hdelim⟩
      have hc : c = '.' := by injection heq
      have hrest : rest = e ++ q := by injection heq
      refine ⟨hc, e, hmem, ?_, ?_⟩
      · exact (isPrefixOf_true_iff _ _).mpr ⟨q, hrest.symm⟩
      · rw [hrest, List.drop_left]
        exact (delimOk_iff q).mpr hdelim

theorem extScan_iff (exts : List (List Char)) (l : List Char) :
    extScan exts l = true ↔ HasExtAtBoundary exts l := by
  induction l with
  | nil =>
    simp only [extScan, HasExtAtBoundary]
    constructor
    · intro h
      exact absurd h (by simp)
    · rintro ⟨p, e, q, -, heq, -⟩
      exact absurd heq (by simp)
  | cons c rest ih =>
    rw [extScan, Bool.or_eq_true_iff, extHere_iff, ih]
    constructor
    · rintro (⟨e, hmem, q, heq, hdelim⟩ | ⟨p, e, q, hmem, heq, hdelim⟩)
      · exact ⟨[], e, q, hmem, by simpa using heq, hdelim⟩
      · exact ⟨c :: p, e, q, hmem, by rw [heq]; rfl, hdelim⟩
    · rintro ⟨p, e, q, hmem, heq, hdelim⟩
      cases p with
      | nil =>
        left
        exact ⟨e, hmem, q, by simpa using heq, hdelim⟩
      | cons c2 p2 =>
        right
        have h1 : rest = p2 ++ '.' :: (e ++ q) := by injection heq
        exact ⟨p2, e, q, hmem, h1, hdelim⟩

theorem includesGo_iff (sub l : List Char) :
    includesGo sub l = true ↔ ContainsSub sub l := by
  induction l with
  | nil =>
    simp only [includesGo, ContainsSub]
    rw [isPrefixOf_true_iff]
    constructor
    · intro h
      exact ⟨[], [], by simpa using (List.prefix_nil.mp h)⟩
    · rintro ⟨p, q, heq⟩
      have h2 := heq.symm
      rw [List.append_eq_nil] at h2
      rcases h2 with ⟨h3, -⟩
      rw [List.append_eq_nil] at h3
      simp [h3.2]
  | cons c rest ih =>
    rw [includesGo, Bool.or_eq_true_iff, ih, isPrefixOf_true_iff]
    constructor
    · rintro (⟨q, hq⟩ | ⟨p, q, heq⟩)
      · exact ⟨[], q, by simpa using hq.symm⟩
      · exact ⟨c :: p, q, by rw [heq]; rfl⟩
    · rintro ⟨p, q, heq⟩
      cases p with
      | nil => exact Or.inl ⟨q, by simpa using heq.symm⟩
      | cons c2 p2 =>
        right
        have h1 : rest = p2 ++ sub ++ q := by injection heq
        exact ⟨p2, q, h1⟩

theorem jsIncludes_iff (s sub : String) :
    jsIncludes s sub = true ↔ ContainsSub sub.toList s.toList := by
  rw [jsIncludes]
  exact includesGo_iff sub.toList s.toList

/-! ## Lemmas on description normalization (claim C8) -/

theorem stripCoreAux_no_lt (fuel : Nat) (l : List Char) :
    '<' ∉ stripCoreAux fuel l := by
  induction fuel generalizing l with
  | zero => simp [stripCoreAux]
  | succ fuel ih =>
    cases l with
    | nil => simp [stripCoreAux]
    | cons c rest =>
      rw [stripCoreAux]
      split_ifs with hc
      · exact ih (dropTag rest)
      · intro hmem
        rcases List.mem_cons.mp hmem with h | h
        · exact hc h.symm
        · exact ih rest h

theorem collapseGo_mem (b : Bool) (l : List Char) (c : Char)
    (h : c ∈ collapseGo b l) : c = ' ' ∨ c ∈ l := by
  induction l generalizing b with
  | nil => simp [collapseGo] at h
  | cons x rest ih =>
    rw [collapseGo] at h
    split_ifs at h with h1 h2
    · rcases ih true h with h3 | h3
      · exact Or.inl h3
      · exact Or.inr (List.mem_cons_of_mem x h3)
    · rcases List.mem_cons.mp h with h3 | h3
      · exact Or.inl h3
      · rcases ih true h3 with h4 | h4
        · exact Or.inl h4
        · exact Or.inr (List.mem_cons_of_mem x h4)
    · rcases List.mem_cons.mp h with h3 | h3
      · exact Or.inr (h3 ▸ List.mem_cons_self x rest)
      · rcases ih false h3 with h4 | h4
        · exact Or.inl h4
        · exact Or.inr (List.mem_cons_of_mem x h4)

theorem jsTrimList_subset (l : List Char) : jsTrimList l ⊆ l := by
  intro c hc
  unfold jsTrimList at hc
  rw [List.mem_reverse] at hc
  have h1 := (List.dropWhile_sublist
    (l := (l.dropWhile isJsSpace).reverse) (p := isJsSpace)).subset hc
  rw [List.mem_reverse] at h1
  exact (List.dropWhile_sublist (l := l) (p := isJsSpace)).subset h1

theorem jsTrimList_length_le (l : List Char) :
    (jsTrimList l).length ≤ l.length := by
  unfold jsTrimList
  calc ((l.dropWhile isJsSpace).reverse.dropWhile isJsSpace).reverse.length
      = ((l.dropWhile isJsSpace).reverse.dropWhile isJsSpace).length := by
        rw [List.length_reverse]
    _ ≤ (l.dropWhile isJsSpace).reverse.length :=
        (List.dropWhile_sublist _).length_le
    _ = (l.dropWhile isJsSpace).length := by rw [List.length_reverse]
    _ ≤ l.length := (List.dropWhile_sublist _).length_le

theorem stripHtml_no_lt (str : String) : '<' ∉ (stripHtml str).toList := by
  unfold stripHtml
  split_ifs with h
  · simp
  · exact stripCoreAux_no_lt _ _

theorem truncBase_no_lt (str : String) :
    '<' ∉ (jsTrim (String.mk (collapseWs (stripHtml str).toList))).toList := by
  intro h
  have h1 := jsTrimList_subset _ h
  rcases collapseGo_mem false _ _ h1 with h2 | h2
  · exact absurd h2 (by decide)
  · exact stripHtml_no_lt str h2

theorem safeTruncate_short (str : String) (n : Nat)
    (h : (jsTrim (String.mk (collapseWs (stripHtml str).toList))).length ≤ n) :
    safeTruncate str n = jsTrim (String.mk (collapseWs (stripHtml str).toList)) := by
  simp only [safeTruncate]
  split_ifs with h1 h2
  · exact h1.symm
  · rw [String.length] at h h2
    omega
  · rfl

theorem safeTruncate_long (str : String) (n : Nat)
    (h : n < (jsTrim (String.mk (collapseWs (stripHtml str).toList))).length) :
    safeTruncate str n =
      jsTrim (String.mk
        ((jsTrim (String.mk (collapseWs (stripHtml str).toList))).toList.take n))
        ++ "…" := by
  simp only [safeTruncate]
  split_ifs with h1
  · rw [h1] at h
    simp [String.length] at h
  · rfl

theorem safeTruncate_long_length (str : String) (n : Nat)
    (h : n < (jsTrim (String.mk (collapseWs (stripHtml str).toList))).length) :
    (safeTruncate str n).length ≤ n + 1 := by
  rw [safeTruncate_long str n h, String.length_append]
  have h1 : (jsTrim (String.mk
      ((jsTrim (String.mk (collapseWs (stripHtml str).toList))).toList.take n))).length
      ≤ n := by
    calc (jsTrim (String.mk _)).length
        = (jsTrimList
            ((jsTrim (String.mk (collapseWs (stripHtml str).toList))).toList.take n)).length :=
          rfl
      _ ≤ ((jsTrim (String.mk (collapseWs (stripHtml str).toList))).toList.take n).length :=
          jsTrimList_length_le _
      _ ≤ n := by simp
  have h2 : ("…" : String).length = 1 := rfl
  omega

theorem safeTruncate_no_lt (str : String) (n : Nat) :
    '<' ∉ (safeTruncate str n).toList := by
  by_cases h : n < (jsTrim (String.mk (collapseWs (stripHtml str).toList))).length
  · rw [safeTruncate_long str n h]
    intro hmem
    have hsplit : (jsTrim (String.mk
        ((jsTrim (String.mk (collapseWs (stripHtml str).toList))).toList.take n))
          ++ ("…" : String)).toList
        = (jsTrim (String.mk
            ((jsTrim (String.mk (collapseWs (stripHtml str).toList))).toList.take n))).toList
          ++ "…".toList := rfl
    rw [hsplit] at hmem
    rcases List.mem_append.mp hmem with h1 | h1
    · have h2 := jsTrimList_subset _ h1
      have h3 := List.take_subset n _ h2
      exact truncBase_no_lt str h3
    · simp at h1
  · rw [safeTruncate_short str n (by omega)]
    exact truncBase_no_lt str

/-! ## Lemmas on decimal serialization and the IP checks (claim C1) -/

theorem digitChar_mem_digits (m : Nat) : digitChar m ∈ decDigits := by
  unfold digitChar decDigits
  split_ifs <;> simp

theorem mem_decDigits_isDigit : ∀ ch ∈ decDigits, ch.isDigit = true := by decide

theorem mem_decDigits_toLower : ∀ ch ∈ decDigits, ch.toLower = ch := by decide

theorem mem_decDigits_ne_dot : ∀ x ∈ decDigits, x ≠ '.' := by decide

theorem digitChar_isDigit (m : Nat) : (digitChar m).isDigit = true :=
  mem_decDigits_isDigit _ (digitChar_mem_digits m)

theorem digitVal_digitChar (m : Nat) (h : m < 10) :
    digitVal (digitChar m) = m := by
  unfold digitChar
  split_ifs with h0 h1 h2 h3 h4 h5 h6 h7 h8
  · subst h0; decide
  · subst h1; decide
  · subst h2; decide
  · subst h3; decide
  · subst h4; decide
  · subst h5; decide
  · subst h6; decide
  · subst h7; decide
  · subst h8; decide
  · have h9 : m = 9 := by omega
    subst h9; decide

theorem digitChar_ne_zero (m : Nat) (h : m ≠ 0) : digitChar m ≠ '0' := by
  unfold digitChar
  split_ifs with h0 <;> first | exact absurd h0 h | decide

theorem natDigitsAux_ne_nil (fuel n : Nat) (h : n < fuel) :
    natDigitsAux fuel n ≠ [] := by
  cases fuel with
  | zero => omega
  | succ fuel =>
    rw [natDigitsAux]
    split_ifs <;> simp

theorem natDigitsAux_mem (fuel n : Nat) (h : n < fuel) :
    ∀ ch ∈ natDigitsAux fuel n, ch ∈ decDigits := by
  induction fuel generalizing n with
  | zero => omega
  | succ fuel ih =>
    rw [natDigitsAux]
    split_ifs with h10
    · intro ch hch
      rw [List.mem_singleton] at hch
      subst hch
      exact digitChar_mem_digits n
    · intro ch hch
      rcases List.mem_append.mp hch with h1 | h1
      · exact ih (n / 10) (by omega) ch h1
      · rw [List.mem_singleton] at h1
        subst h1
        exact digitChar_mem_digits _

theorem natDigitsAux_head_ne_zero (fuel n : Nat) (h : n < fuel) (hn : 1 ≤ n) :
    (natDigitsAux fuel n).headD ' ' ≠ '0' := by
  induction fuel generalizing n with
  | zero => omega
  | succ fuel ih =>
    rw [natDigitsAux]
    split_ifs with h10
    · simpa using digitChar_ne_zero n (by omega)
    · cases haux : natDigitsAux fuel (n / 10) with
      | nil => exact absurd haux (natDigitsAux_ne_nil fuel (n / 10) (by omega))
      | cons x xs =>
        have hh := ih (n / 10) (by omega) (by omega)
        rw [haux] at hh
        simpa using hh

theorem natDigitsAux_length_le (fuel n k : Nat) (h : n < fuel) (hk : 1 ≤ k)
    (hn : n < 10 ^ k) : (natDigitsAux fuel n).length ≤ k := by
  induction fuel generalizing n k with
  | zero => omega
  | succ fuel ih =>
    rw [natDigitsAux]
    split_ifs with h10
    · simpa using hk
    · rw [List.length_append]
      have hk2 : 2 ≤ k := by
        by_contra hc
        have hk1 : k = 1 := by omega
        subst hk1
        rw [pow_one] at hn
        omega
      have h1 : 10 ^ k = 10 ^ (k - 1) * 10 := by
        conv_lhs => rw [show k = (k - 1) + 1 by omega]
        rw [pow_succ]
      have hdiv : n / 10 < 10 ^ (k - 1) := by
        rw [Nat.div_lt_iff_lt_mul (by norm_num : (0:Nat) < 10)]
        calc n < 10 ^ k := hn
          _ = 10 ^ (k - 1) * 10 := h1
      have h2 := ih (n / 10) (k - 1) (by omega) (by omega) hdiv
      simp only [List.length_singleton]
      omega

theorem valAux_nil (acc : Nat) : valAux acc [] = acc := rfl

theorem valAux_cons (acc : Nat) (c : Char) (cs : List Char) :
    valAux acc (c :: cs) = valAux (acc * 10 + digitVal c) cs := rfl

theorem valAux_append (acc : Nat) (l1 l2 : List Char) :
    valAux acc (l1 ++ l2) = valAux (valAux acc l1) l2 := by
  induction l1 generalizing acc with
  | nil => rfl
  | cons c cs ih => rw [List.cons_append, valAux_cons, valAux_cons, ih]

theorem valAux_natDigitsAux (fuel n acc : Nat) (h : n < fuel) :
    valAux acc (natDigitsAux fuel n) =
      acc * 10 ^ (natDigitsAux fuel n).length + n := by
  induction fuel generalizing n acc with
  | zero => omega
  | succ fuel ih =>
    rw [natDigitsAux]
    split_ifs with h10
    · rw [valAux_cons, valAux_nil, digitVal_digitChar n h10]
      simp [pow_one]
    · rw [valAux_append, List.length_append]
      rw [ih (n / 10) acc (by omega)]
      rw [valAux_cons, valAux_nil, digitVal_digitChar _ (by omega)]
      simp only [List.length_singleton]
      have hmod : n / 10 * 10 + n % 10 = n := by omega
      calc (acc * 10 ^ (natDigitsAux fuel (n / 10)).length + n / 10) * 10 + n % 10
          = acc * (10 ^ (natDigitsAux fuel (n / 10)).length * 10)
            + (n / 10 * 10 + n % 10) := by ring
        _ = acc * 10 ^ ((natDigitsAux fuel (n / 10)).length + 1) + n := by
            rw [hmod, pow_succ]

theorem natDigits_ne_nil (n : Nat) : natDigits n ≠ [] :=
  natDigitsAux_ne_nil _ _ (by omega)

theorem natDigits_mem (n : Nat) : ∀ ch ∈ natDigits n, ch ∈ decDigits :=
  natDigitsAux_mem _ _ (by omega)

theorem digitsVal_natDigits (n : Nat) : digitsVal (natDigits n) = n := by
  unfold digitsVal natDigits
  rw [valAux_natDigitsAux _ _ _ (by omega)]
  simp

theorem natDigits_length_le3 (n : Nat) (h : n ≤ 255) :
    (natDigits n).length ≤ 3 :=
  natDigitsAux_length_le _ _ 3 (by omega) (by omega) (by norm_num; omega)

theorem natDigits_head_ne_zero (n : Nat) (hn : 1 ≤ n) :
    (natDigits n).headD ' ' ≠ '0' :=
  natDigitsAux_head_ne_zero _ _ (by omega) hn

theorem natDigits_of_lt10 (n : Nat) (h : n < 10) :
    natDigits n = [digitChar n] := by
  unfold natDigits natDigitsAux
  rw [if_pos h]

theorem splitOnChar_no_sep (sep : Char) (l : List Char)
    (h : ∀ x ∈ l, x ≠ sep) : splitOnChar sep l = [l] := by
  induction l with
  | nil => rfl
  | cons c cs ih =>
    rw [splitOnChar]
    have hc : c ≠ sep := h c (List.mem_cons_self c cs)
    rw [if_neg hc, ih (fun x hx => h x (List.mem_cons_of_mem c hx))]

theorem splitOnChar_append_sep (sep : Char) (l rest : List Char)
    (h : ∀ x ∈ l, x ≠ sep) :
    splitOnChar sep (l ++ sep :: rest) = l :: splitOnChar sep rest := by
  induction l with
  | nil =>
    rw [List.nil_append, splitOnChar, if_pos rfl]
  | cons c cs ih =>
    rw [List.cons_append, splitOnChar]
    have hc : c ≠ sep := h c (List.mem_cons_self c cs)
    rw [if_neg hc, ih (fun x hx => h x (List.mem_cons_of_mem c hx))]

theorem natDigits_ne_dot (n : Nat) : ∀ x ∈ natDigits n, x ≠ '.' :=
  fun x hx => mem_decDigits_ne_dot x (natDigits_mem n x hx)

theorem ip4Chars_split (a b c d : Nat) :
    splitOnChar '.' (ip4Chars a b c d) =
      [natDigits a, natDigits b, natDigits c, natDigits d] := by
  unfold ip4Chars
  rw [splitOnChar_append_sep _ _ _ (natDigits_ne_dot a),
      splitOnChar_append_sep _ _ _ (natDigits_ne_dot b),
      splitOnChar_append_sep _ _ _ (natDigits_ne_dot c),
      splitOnChar_no_sep _ _ (natDigits_ne_dot d)]

theorem takeWhile_all_digits (l : List Char)
    (h : ∀ x ∈ l, x.isDigit = true) : l.takeWhile Char.isDigit = l := by
  induction l with
  | nil => rfl
  | cons c cs ih =>
    rw [List.takeWhile_cons, if_pos (h c (List.mem_cons_self c cs)),
      ih (fun x hx => h x (List.mem_cons_of_mem c hx))]

theorem natDigits_all_digit (n : Nat) : ∀ x ∈ natDigits n, x.isDigit = true :=
  fun x hx => mem_decDigits_isDigit x (natDigits_mem n x hx)

theorem parseIntDec_natDigits (n : Nat) :
    parseIntDec (String.mk (natDigits n)) = some n := by
  unfold parseIntDec
  have h1 : (String.mk (natDigits n)).toList = natDigits n := rfl
  rw [h1, takeWhile_all_digits _ (natDigits_all_digit n)]
  rw [if_neg (by simpa using natDigits_ne_nil n)]
  rw [digitsVal_natDigits]

theorem validOctet_natDigits (n : Nat) (h : n ≤ 255) :
    validOctet (natDigits n) = true := by
  unfold validOctet
  simp only [Bool.and_eq_true_iff, Bool.or_eq_true_iff, Bool.not_eq_true',
    decide_eq_true_eq, List.all_eq_true, List.isEmpty_eq_false]
  refine ⟨⟨⟨⟨?_, ?_⟩, ?_⟩, ?_⟩, ?_⟩
  · simpa using natDigits_ne_nil n
  · exact natDigits_all_digit n
  · exact natDigits_length_le3 n h
  · by_cases h10 : n < 10
    · left
      rw [natDigits_of_lt10 n h10]
      rfl
    · right
      exact natDigits_head_ne_zero n (by omega)
  · rw [digitsVal_natDigits]
    exact h

theorem isIPv4String_ip4 (a b c d : Nat)
    (ha : a ≤ 255) (hb : b ≤ 255) (hc : c ≤ 255) (hd : d ≤ 255) :
    isIPv4String (ip4String a b c d) = true := by
  unfold isIPv4String
  rw [show (ip4String a b c d).toList = ip4Chars a b c d from rfl,
    ip4Chars_split]
  simp [validOctet_natDigits a ha, validOctet_natDigits b hb,
    validOctet_natDigits c hc, validOctet_natDigits d hd]

theorem ip4String_ne_empty (a b c d : Nat) : ip4String a b c d ≠ "" := by
  intro he
  have h0 : ip4Chars a b c d = [] := by
    have h1 := congrArg String.data he
    simpa using h1
  unfold ip4Chars at h0
  rcases List.append_eq_nil.mp h0 with ⟨h1, -⟩
  exact natDigits_ne_nil a h1

theorem isPrivateIpLiteral_ip4 (a b c d : Nat)
    (ha : a ≤ 255) (hb : b ≤ 255) (hc : c ≤ 255) (hd : d ≤ 255)
    (hrange : a = 127 ∨ a = 10 ∨ (a = 172 ∧ 16 ≤ b ∧ b ≤ 31) ∨
      (a = 192 ∧ b = 168) ∨ (a = 169 ∧ b = 254) ∨
      (a = 100 ∧ 64 ≤ b ∧ b ≤ 127) ∨ a = 0) :
    isPrivateIpLiteral (ip4String a b c d) = true := by
  have hip : netIsIP (ip4String a b c d) = 4 := by
    unfold netIsIP
    rw [if_pos (isIPv4String_ip4 a b c d ha hb hc hd)]
  have hparts : (splitOnChar '.' (ip4String a b c d).data).map
      (fun p => parseIntDec (String.mk p))
      = [some a, some b, some c, some d] := by
    rw [show (ip4String a b c d).data = ip4Chars a b c d from rfl,
      ip4Chars_split]
    simp [parseIntDec_natDigits]
  simp only [isPrivateIpLiteral]
  rw [if_neg (ip4String_ne_empty a b c d)]
  rw [hip]
  norm_num
  rw [hparts]
  simp only [nthNum, List.get?_cons_zero, List.get?_cons_succ, Option.getD_some]
  rcases hrange with h | h | h | h | h | h | h <;>
    simp_all [numEq, numGe, numLe]

theorem ip4_mem_shape (a b c d : Nat) :
    ∀ ch ∈ ip4Chars a b c d, ch = '.' ∨ ch ∈ decDigits := by
  intro ch hch
  unfold ip4Chars at hch
  simp only [List.mem_append, List.mem_cons] at hch
  rcases hch with h | h | h | h | h | h | h
  · exact Or.inr (natDigits_mem a ch h)
  · exact Or.inl h
  · exact Or.inr (natDigits_mem b ch h)
  · exact Or.inl h
  · exact Or.inr (natDigits_mem c ch h)
  · exact Or.inl h
  · exact Or.inr (natDigits_mem d ch h)

theorem jsToLower_ip4 (a b c d : Nat) :
    jsToLower (ip4String a b c d) = ip4String a b c d := by
  unfold jsToLower
  congr 1
  apply map_eq_self_of_fix
  intro x hx
  rcases ip4_mem_shape a b c d x hx with h | h
  · rw [h]
    decide
  · exact mem_decDigits_toLower x h

theorem ip4_no_l (a b c d : Nat) : 'l' ∉ ip4Chars a b c d := by
  intro h
  rcases ip4_mem_shape a b c d 'l' h with h1 | h1
  · exact absurd h1 (by decide)
  · exact absurd h1 (by decide)

theorem ip4_not_local (a b c d : Nat) :
    ¬(ip4String a b c d = "localhost" ∨
      jsEndsWith (ip4String a b c d) ".localhost" = true ∨
      jsEndsWith (ip4String a b c d) ".local" = true) := by
  rintro (h | h | h)
  · have hmem : 'l' ∈ ip4Chars a b c d := by
      have h2 : ip4Chars a b c d = ("localhost" : String).toList :=
        congrArg String.toList h
      rw [h2]
      decide
    exact ip4_no_l a b c d hmem
  · have hs := (isSuffixOf_true_iff _ _).mp h
    exact ip4_no_l a b c d (hs.subset (by decide))
  · have hs := (isSuffixOf_true_iff _ _).mp h
    exact ip4_no_l a b c d (hs.subset (by decide))

/-! ## Claims -/

/-- C1: the spec claims `validateRssUrl` rejects every private/loopback/
link-local hostname, IPv4 and IPv6 alike. The IPv4 and name-based parts
hold: for every literal IPv4 address in 127.0.0.0/8, 10.0.0.0/8,
172.16.0.0/12, 192.168.0.0/16, 169.254.0.0/16, 100.64.0.0/10 or
0.0.0.0/8 (canonical dotted-quad hostname, as the WHATWG parser
produces), and for the spec's name-based hostnames, validation rejects.
The IPv6 part is violated by the code: the WHATWG `URL.hostname` of an
IPv6 URL keeps the brackets (`"[::1]"`), `net.isIP` rejects the
bracketed form, so `isPrivateIpLiteral`'s own IPv6 branch — which does
block the bare forms `::1`, `fe80::1`, `fc00::1`, as the last-but-one
conjunct shows — is unreachable, and `http://[::1]/feed` is accepted. -/
theorem claimC1 :
    (∀ a b c d : Nat, a ≤ 255 → b ≤ 255 → c ≤ 255 → d ≤ 255 →
      (a = 127 ∨ a = 10 ∨ (a = 172 ∧ 16 ≤ b ∧ b ≤ 31) ∨
        (a = 192 ∧ b = 168) ∨ (a = 169 ∧ b = 254) ∨
        (a = 100 ∧ 64 ≤ b ∧ b ≤ 127) ∨ a = 0) →
      ∀ (allowlist : List String) (protocol ser : String),
        (protocol = "http:" ∨ protocol = "https:") →
        validateRssUrl allowlist (some ⟨protocol, ip4String a b c d, ser⟩)
          = .rejected "Private IP addresses are not allowed") ∧
    (validateRssUrl [] (some ⟨"http:", "localhost", "http://localhost/feed"⟩)
        = .rejected "Localhost/local domains are not allowed" ∧
      validateRssUrl [] (some ⟨"http:", "a.localhost", "http://a.localhost/feed"⟩)
        = .rejected "Localhost/local domains are not allowed" ∧
      validateRssUrl [] (some ⟨"http:", "x.local", "http://x.local/feed"⟩)
        = .rejected "Localhost/local domains are not allowed" ∧
      validateRssUrl [] (some ⟨"http:", "127.0.0.1", "http://127.0.0.1/feed"⟩)
        = .rejected "Private IP addresses are not allowed" ∧
      validateRssUrl [] (some ⟨"http:", "10.1.2.3", "http://10.1.2.3/feed"⟩)
        = .rejected "Private IP addresses are not allowed" ∧
      validateRssUrl [] (some ⟨"http:", "192.168.0.5", "http://192.168.0.5/feed"⟩)
        = .rejected "Private IP addresses are not allowed" ∧
      validateRssUrl [] (some ⟨"http:", "169.254.1.1", "http://169.254.1.1/feed"⟩)
        = .rejected "Private IP addresses are not allowed") ∧
    (isPrivateIpLiteral "::1" = true ∧
      isPrivateIpLiteral "fe80::1" = true ∧
      isPrivateIpLiteral "fc00::1" = true) ∧
    (validateRssUrl [] (some ⟨"http:", "[::1]", "http://[::1]/feed"⟩)
        = .accepted "http://[::1]/feed" ∧
      validateRssUrl [] (some ⟨"http:", "[fe80::1]", "http://[fe80::1]/feed"⟩)
        = .accepted "http://[fe80::1]/feed" ∧
      validateRssUrl [] (some ⟨"http:", "[fc00::1]", "http://[fc00::1]/feed"⟩)
        = .accepted "http://[fc00::1]/feed") := by
  refine ⟨?_, by decide, by decide, by decide⟩
  intro a b c d ha hb hc hd hrange A protocol ser hproto
  simp only [validateRssUrl]
  rw [if_neg (not_not_intro hproto)]
  rw [jsToLower_ip4]
  rw [if_neg (ip4_not_local a b c d)]
  rw [if_pos (isPrivateIpLiteral_ip4 a b c d ha hb hc hd hrange)]

/-- Witness instantiating the universal IPv4 part of C1's theorem at the
CGNAT address 100.64.0.1. -/
theorem claimC1_witness :
    validateRssUrl []
      (some ⟨"http:", ip4String 100 64 0 1, "http://100.64.0.1/feed"⟩)
      = .rejected "Private IP addresses are not allowed" :=
  claimC1.1 100 64 0 1 (by omega) (by omega) (by omega) (by omega)
    (by omega) [] "http:" "http://100.64.0.1/feed" (Or.inl rfl)

/-- C2: with allowlist exactly `example.com`, `https://sub.example.com/feed.xml`
is accepted and `https://evilexample.com/feed.xml` is rejected; and in
general, with a non-empty allowlist, a URL is accepted only if its
lowercased hostname equals some entry or ends with a dot followed by
that entry. -/
theorem claimC2 :
    validateRssUrl ["example.com"]
      (some ⟨"https:", "sub.example.com", "https://sub.example.com/feed.xml"⟩)
      = .accepted "https://sub.example.com/feed.xml" ∧
    validateRssUrl ["example.com"]
      (some ⟨"https:", "evilexample.com", "https://evilexample.com/feed.xml"⟩)
      = .rejected "Hostname not in allowlist" ∧
    (∀ (allowlist : List String) (pu : ParsedUrl) (u : String),
      allowlist ≠ [] →
      validateRssUrl allowlist (some pu) = .accepted u →
      ∃ entry ∈ allowlist, jsToLower pu.hostname = entry ∨
        jsEndsWith (jsToLower pu.hostname) ("." ++ entry) = true) := by
  refine ⟨by decide, by decide, ?_⟩
  intro A pu u hne h
  simp only [validateRssUrl] at h
  split_ifs at h with h1 h2 h3 h4
  unfold passesAllowlist at h4
  rw [if_neg (by simpa using (List.length_pos.mpr hne).ne')] at h4
  rcases List.any_eq_true.mp h4 with ⟨entry, hmem, hcond⟩
  rcases Bool.or_eq_true_iff.mp hcond with hcm | hcm
  · exact ⟨entry, hmem, Or.inl (by simpa using hcm)⟩
  · exact ⟨entry, hmem, Or.inr hcm⟩

/-- Witness instantiating the universal part of C2's theorem at the
accepted URL `https://sub.example.com/feed.xml`. -/
theorem claimC2_witness :
    ∃ entry ∈ ["example.com"],
      jsToLower "sub.example.com" = entry ∨
        jsEndsWith (jsToLower "sub.example.com") ("." ++ entry) = true :=
  claimC2.2.2 ["example.com"]
    ⟨"https:", "sub.example.com", "https://sub.example.com/feed.xml"⟩
    "https://sub.example.com/feed.xml" (by decide) (by decide)

/-- C3: starting from a cache with no entry for the URL, a first
non-forced `getFeed` call whose fetch succeeds invokes the collaborator,
and a second non-forced call strictly within the TTL does not invoke it
and returns the cached feed — one invocation total; a forced call always
invokes the collaborator, whatever the cache state. -/
theorem claimC3 {Err Feed : Type} (hash : String → String)
    (fetch : String → Except Err Feed) (ttlMs : Int)
    (cache0 : FeedCache Feed) (now1 now2 : Int) (url : String) (f : Feed)
    (hcold : cache0 (hash url) = none)
    (hfetch : fetch url = .ok f)
    (hfresh : now2 - now1 < ttlMs) :
    (getFeed hash fetch ttlMs cache0 now1 url false).fetched = true ∧
    (getFeed hash fetch ttlMs cache0 now1 url false).result = .ok f ∧
    (getFeed hash fetch ttlMs
      (getFeed hash fetch ttlMs cache0 now1 url false).cache now2 url false).fetched
      = false ∧
    (getFeed hash fetch ttlMs
      (getFeed hash fetch ttlMs cache0 now1 url false).cache now2 url false).result
      = .ok f ∧
    (∀ (fetch2 : String → Except Err Feed) (cache : FeedCache Feed) (now : Int)
      (url2 : String),
      (getFeed hash fetch2 ttlMs cache now url2 true).fetched = true) := by
  refine ⟨?_, ?_, ?_, ?_, ?_⟩
  · simp [getFeed, hcold, hfetch]
  · simp [getFeed, hcold, hfetch]
  · simp [getFeed, hcold, hfetch, hfresh]
  · simp [getFeed, hcold, hfetch, hfresh]
  · intro fetch2 cache now url2
    cases h : cache (hash url2) <;> cases h2 : fetch2 url2 <;>
      simp [getFeed, h, h2]

/-- Witness running C3's two-call scenario on a concrete cache, clock
and collaborator. -/
theorem claimC3_witness :
    (getFeed (fun s => s) (fun _ => (Except.ok 42 : Except Unit Nat)) 100
      (emptyCache Nat) 0 "u" false).fetched = true ∧
    (getFeed (fun s => s) (fun _ => (Except.ok 42 : Except Unit Nat)) 100
      (getFeed (fun s => s) (fun _ => (Except.ok 42 : Except Unit Nat)) 100
        (emptyCache Nat) 0 "u" false).cache 50 "u" false).fetched = false ∧
    (getFeed (fun s => s) (fun _ => (Except.ok 42 : Except Unit Nat)) 100
      (getFeed (fun s => s) (fun _ => (Except.ok 42 : Except Unit Nat)) 100
        (emptyCache Nat) 0 "u" false).cache 50 "u" false).result
      = Except.ok 42 := by
  have A := claimC3 (fun s => s) (fun _ => (Except.ok 42 : Except Unit Nat))
    100 (emptyCache Nat) 0 50 "u" 42 rfl rfl (by norm_num)
  exact ⟨A.1, A.2.2.1, A.2.2.2.1⟩

/-- C4: when an entry exists and a refresh is attempted (forced, or the
entry is stale) and the fetch fails, the error is returned and the cache
is unchanged, so a later non-forced call within the TTL of the original
entry still returns the previously cached feed; on a cache with no entry
for the URL a failing fetch propagates and stores nothing. -/
theorem claimC4 {Err Feed : Type} (hash : String → String)
    (fetch : String → Except Err Feed) (ttlMs : Int)
    (cache : FeedCache Feed) (now : Int) (url : String) (err : Err)
    (e : CacheEntry Feed) (force : Bool)
    (hentry : cache (hash url) = some e)
    (hfail : fetch url = .error err)
    (hattempt : force = true ∨ ttlMs ≤ now - e.atMs) :
    (getFeed hash fetch ttlMs cache now url force).result = .error err ∧
    (getFeed hash fetch ttlMs cache now url force).cache = cache ∧
    (∀ (fetch2 : String → Except Err Feed) (now2 : Int),
      now2 - e.atMs < ttlMs →
      (getFeed hash fetch2 ttlMs
        (getFeed hash fetch ttlMs cache now url force).cache now2 url false).result
        = .ok e.feed) ∧
    (∀ (cache2 : FeedCache Feed) (now2 : Int) (force2 : Bool),
      cache2 (hash url) = none →
      (getFeed hash fetch ttlMs cache2 now2 url force2).result = .error err ∧
      (getFeed hash fetch ttlMs cache2 now2 url force2).cache = cache2) := by
  have hmiss : ¬(force = false ∧ now - e.atMs < ttlMs) := by
    rcases hattempt with h | h
    · rintro ⟨h2, -⟩
      rw [h] at h2
      exact Bool.true_eq_false.mp h2
    · rintro ⟨-, h2⟩
      exact absurd h2 (Int.not_lt.mpr h)
  refine ⟨?_, ?_, ?_, ?_⟩
  · simp [getFeed, hentry, hmiss, hfail]
  · simp [getFeed, hentry, hmiss, hfail]
  · intro fetch2 now2 hfresh
    simp [getFeed, hentry, hmiss, hfail, hfresh]
  · intro cache2 now2 force2 hcold
    constructor <;> simp [getFeed, hcold, hfail]

/-- Witness running C4's failed-stale-refresh scenario on a concrete
cache holding the feed 7 fetched at time 0. -/
theorem claimC4_witness :
    (getFeed (fun s => s) (fun _ => (Except.error () : Except Unit Nat)) 100
      (fun k => if k = "u" then some ⟨0, 7⟩ else none) 200 "u" false).result
      = Except.error () ∧
    (getFeed (fun s => s) (fun _ => (Except.error () : Except Unit Nat)) 100
      (getFeed (fun s => s) (fun _ => (Except.error () : Except Unit Nat)) 100
        (fun k => if k = "u" then some ⟨0, 7⟩ else none) 200 "u" false).cache
      50 "u" false).result = Except.ok 7 := by
  have A := claimC4 (fun s => s) (fun _ => (Except.error () : Except Unit Nat))
    100 (fun k => if k = "u" then some ⟨0, 7⟩ else none) 200 "u" () ⟨0, 7⟩
    false (by simp) rfl (Or.inr (by norm_num))
  exact ⟨A.1, A.2.2.1 (fun _ => Except.error ()) 50 (by norm_num)⟩

/-- C5 (amended): the claim as written is false — `id` is assigned by the
`.map` that runs before the `.filter`, so ids are positions in the
truncated pre-filter sequence and need not be consecutive. What holds:
every output record has a nonempty `mediaUrl` (so an item with no
enclosure URL, no media-content URL and an empty link yields no record),
each output record equals the mapping of the truncated input item at
index `id`, and ids are strictly increasing along the output. -/
theorem claimC5 (toIso : String → String) (items : List RawItem)
    (limit : Nat) :
    (∀ e ∈ episodes toIso items limit, e.mediaUrl ≠ "" ∧
      ∃ hj : e.id < (items.take limit).length,
        e = mkRecord toIso e.id ((items.take limit).get ⟨e.id, hj⟩)) ∧
    (episodes toIso items limit).Pairwise (fun e1 e2 => e1.id < e2.id) := by
  constructor
  · intro e he
    rw [episodes] at he
    have hmf := List.mem_filter.mp he
    refine ⟨by simpa using hmf.2, ?_⟩
    rcases mapWithIdx_mem toIso 0 (items.take limit) e hmf.1 with
      ⟨j, hj, hid, heq⟩
    have hj2 : e.id < (items.take limit).length := by omega
    refine ⟨hj2, ?_⟩
    have hej : e.id = j := by omega
    subst hej
    simpa using heq
  · exact List.Pairwise.sublist (List.filter_sublist _)
      (mapWithIdx_pairwise toIso 0 _)

/-- Counterexample to C5 as stated: a no-media item followed by an mp3
item yields a single record whose id is 1, not the position 0 in the
filtered output — the output ids are not `0, 1, 2, …`. -/
theorem claimC5_counterexample :
    (episodes (fun s => s)
      [{ link := some "" },
       { enclosure := some ⟨some "a.mp3", some "audio/mpeg"⟩ }] 100).map
        (fun e => e.id) ≠
    List.range ((episodes (fun s => s)
      [{ link := some "" },
       { enclosure := some ⟨some "a.mp3", some "audio/mpeg"⟩ }] 100).length) := by
  decide

/-- Witness instantiating C5's amended theorem at a one-item feed. -/
theorem claimC5_witness :
    (mkRecord (fun s => s) 0
      { enclosure := some ⟨some "a.mp3", some "audio/mpeg"⟩ }).mediaUrl ≠ "" ∧
    ∃ hj : (mkRecord (fun s => s) 0
        { enclosure := some ⟨some "a.mp3", some "audio/mpeg"⟩ }).id <
      (([{ enclosure := some ⟨some "a.mp3", some "audio/mpeg"⟩ }] :
        List RawItem).take 5).length,
      mkRecord (fun s => s) 0
          { enclosure := some ⟨some "a.mp3", some "audio/mpeg"⟩ }
        = mkRecord (fun s => s)
          (mkRecord (fun s => s) 0
            { enclosure := some ⟨some "a.mp3", some "audio/mpeg"⟩ }).id
          ((([{ enclosure := some ⟨some "a.mp3", some "audio/mpeg"⟩ }] :
            List RawItem).take 5).get
            ⟨(mkRecord (fun s => s) 0
              { enclosure := some ⟨some "a.mp3", some "audio/mpeg"⟩ }).id, hj⟩) :=
  (claimC5 (fun s => s)
    [{ enclosure := some ⟨some "a.mp3", some "audio/mpeg"⟩ }] 5).1
    (mkRecord (fun s => s) 0
      { enclosure := some ⟨some "a.mp3", some "audio/mpeg"⟩ })
    (by decide)

/-- C6: kind inference follows the spec's priority order — a MIME type
with the `video/` prefix wins, then `audio/`, then the `.m3u8`
substring test, then the video extension test at a query/fragment/end
boundary, then the audio extension test, then the default `audio`; in
particular an `a.mp3` enclosure typed `audio/mpeg` is audio and an
untyped `a.mp4` enclosure is video. -/
theorem claimC6 :
    inferKind "a.mp3" "audio/mpeg" = "audio" ∧
    inferKind "a.mp4" "" = "video" ∧
    (∀ u t : String,
      (("video/".toList <+: (jsToLower t).toList) →
        inferKind u t = "video") ∧
      (¬("video/".toList <+: (jsToLower t).toList) →
        ("audio/".toList <+: (jsToLower t).toList) →
        inferKind u t = "audio") ∧
      (¬("video/".toList <+: (jsToLower t).toList) →
        ¬("audio/".toList <+: (jsToLower t).toList) →
        (ContainsSub ".m3u8".toList (jsToLower u).toList ∨
          HasExtAtBoundary ["mp4".toList, "webm".toList, "mov".toList]
            (jsToLower u).toList) →
        inferKind u t = "video") ∧
      (¬("video/".toList <+: (jsToLower t).toList) →
        ¬("audio/".toList <+: (jsToLower t).toList) →
        ¬ContainsSub ".m3u8".toList (jsToLower u).toList →
        ¬HasExtAtBoundary ["mp4".toList, "webm".toList, "mov".toList]
          (jsToLower u).toList →
        HasExtAtBoundary ["mp3".toList, "m4a".toList, "aac".toList,
          "ogg".toList, "wav".toList] (jsToLower u).toList →
        inferKind u t = "audio") ∧
      (¬("video/".toList <+: (jsToLower t).toList) →
        ¬("audio/".toList <+: (jsToLower t).toList) →
        ¬ContainsSub ".m3u8".toList (jsToLower u).toList →
        ¬HasExtAtBoundary ["mp4".toList, "webm".toList, "mov".toList]
          (jsToLower u).toList →
        ¬HasExtAtBoundary ["mp3".toList, "m4a".toList, "aac".toList,
          "ogg".toList, "wav".toList] (jsToLower u).toList →
        inferKind u t = "audio")) := by
  refine ⟨by decide, by decide, ?_⟩
  intro u t
  refine ⟨?_, ?_, ?_, ?_, ?_⟩
  · intro h1
    have e1 := (jsStartsWith_iff (jsToLower t) "video/").mpr h1
    simp only [inferKind, e1, if_true]
  · intro h1 h2
    have e1 := bool_eq_false_of_iff (jsStartsWith_iff (jsToLower t) "video/") h1
    have e2 := (jsStartsWith_iff (jsToLower t) "audio/").mpr h2
    simp only [inferKind, e1, e2]
    rfl
  · intro h1 h2 h3
    have e1 := bool_eq_false_of_iff (jsStartsWith_iff (jsToLower t) "video/") h1
    have e2 := bool_eq_false_of_iff (jsStartsWith_iff (jsToLower t) "audio/") h2
    rcases h3 with hm | hx
    · have em := (jsIncludes_iff (jsToLower u) ".m3u8").mpr hm
      simp only [inferKind, e1, e2, em]
      rfl
    · have ex := (extScan_iff _ _).mpr hx
      by_cases hm : jsIncludes (jsToLower u) ".m3u8" = true
      · have em2 : jsIncludes (jsToLower u) ".m3u8" = true := hm
        simp only [inferKind, e1, e2, em2]
        rfl
      · have em := Bool.eq_false_iff.mpr hm
        simp only [inferKind, e1, e2, em, ex]
        rfl
  · intro h1 h2 h3 h4 h5
    have e1 := bool_eq_false_of_iff (jsStartsWith_iff (jsToLower t) "video/") h1
    have e2 := bool_eq_false_of_iff (jsStartsWith_iff (jsToLower t) "audio/") h2
    have em := bool_eq_false_of_iff (jsIncludes_iff (jsToLower u) ".m3u8") h3
    have ev := bool_eq_false_of_iff (extScan_iff _ _) h4
    have ea := (extScan_iff _ _).mpr h5
    simp only [inferKind, e1, e2, em, ev, ea]
    rfl
  · intro h1 h2 h3 h4 h5
    have e1 := bool_eq_false_of_iff (jsStartsWith_iff (jsToLower t) "video/") h1
    have e2 := bool_eq_false_of_iff (jsStartsWith_iff (jsToLower t) "audio/") h2
    have em := bool_eq_false_of_iff (jsIncludes_iff (jsToLower u) ".m3u8") h3
    have ev := bool_eq_false_of_iff (extScan_iff _ _) h4
    have ea := bool_eq_false_of_iff (extScan_iff _ _) h5
    simp only [inferKind, e1, e2, em, ev, ea]
    rfl

/-- Witness instantiating C6's extension-fallback branch at `b.webm`. -/
theorem claimC6_witness :
    inferKind "b.webm" "" = "video" :=
  (claimC6.2.2 "b.webm" "").2.2.1
    (by simp [jsToLower])
    (by simp [jsToLower])
    (Or.inr ⟨"b".toList, "webm".toList, [], by simp, by decide, Or.inl rfl⟩)

/-- C7 (amended): the claim as written is false for media URLs — only
image URLs go through `normalizeToHttps`; `pickMedia` and the episode
mapping pass the selected media URL through unchanged. What holds:
`normalizeToHttps` textually turns a leading `http://` into `https://`
and leaves other strings unchanged; every `pickImageUrl` result has had
the upgrade applied (it never starts with `http://`); the record's
`imageUrl` is `pickImageUrl` of the item and its `mediaUrl` is exactly
`pickMedia`'s URL. -/
theorem claimC7 :
    (∀ url : String, jsStartsWith url "http://" = true →
      normalizeToHttps url
        = String.mk ("https://".toList ++ url.toList.drop 7)) ∧
    (∀ url : String, jsStartsWith url "http://" = false →
      normalizeToHttps url = url) ∧
    (∀ it : RawItem, jsStartsWith (pickImageUrl it) "http://" = false) ∧
    (∀ (toIso : String → String) (idx : Nat) (it : RawItem),
      (mkRecord toIso idx it).imageUrl = pickImageUrl it ∧
      (mkRecord toIso idx it).mediaUrl = (pickMedia it).url) :=
  ⟨normalizeToHttps_of_http, normalizeToHttps_of_not_http,
    pickImageUrl_not_http, fun _ _ _ => ⟨rfl, rfl⟩⟩

/-- Counterexample to C7 as stated: an `http://` enclosure URL reaches
the produced record's `mediaUrl` unchanged, still starting with
`http://` rather than `https://`. -/
theorem claimC7_counterexample :
    ((episodes (fun s => s)
        [{ enclosure := some ⟨some "http://host/a.mp3", some "audio/mpeg"⟩ }]
        100).map (fun e => e.mediaUrl)) = ["http://host/a.mp3"] ∧
    jsStartsWith "http://host/a.mp3" "http://" = true ∧
    jsStartsWith "http://host/a.mp3" "https://" = false := by
  decide

/-- Witness instantiating C7's rewrite branch at `http://x`. -/
theorem claimC7_witness :
    normalizeToHttps "http://x"
      = String.mk ("https://".toList ++ ("http://x" : String).toList.drop 7) :=
  claimC7.1 "http://x" (by decide)

/-- C8 (amended): the claim's "exactly n characters plus the ellipsis"
is false — the source trims the sliced prefix, so a cut landing after a
space yields fewer than n characters. What holds: when the stripped,
collapsed, trimmed form is longer than n, the result is that form's
first n characters with surrounding whitespace trimmed plus one
ellipsis character, of total length at most n + 1; at or under the
budget the form is returned as is; and no `<` (markup) character ever
remains in the output. -/
theorem claimC8 (str : String) (n : Nat) :
    ((jsTrim (String.mk (collapseWs (stripHtml str).toList))).length ≤ n →
      safeTruncate str n
        = jsTrim (String.mk (collapseWs (stripHtml str).toList))) ∧
    (n < (jsTrim (String.mk (collapseWs (stripHtml str).toList))).length →
      safeTruncate str n =
        jsTrim (String.mk
          ((jsTrim (String.mk (collapseWs (stripHtml str).toList))).toList.take n))
          ++ "…" ∧
      (safeTruncate str n).length ≤ n + 1) ∧
    '<' ∉ (safeTruncate str n).toList :=
  ⟨safeTruncate_short str n,
    fun h => ⟨safeTruncate_long str n h, safeTruncate_long_length str n h⟩,
    safeTruncate_no_lt str n⟩

/-- Counterexample to C8 as stated: `"ab cd"` truncated to budget three
gives `"ab…"` — three characters, not the claimed `3 + 1`, because the
trailing space of the slice `"ab "` is trimmed before the ellipsis. -/
theorem claimC8_counterexample :
    jsTrim (String.mk (collapseWs (stripHtml "ab cd").toList)) = "ab cd" ∧
    3 < ("ab cd" : String).length ∧
    safeTruncate "ab cd" 3 = "ab…" ∧
    (safeTruncate "ab cd" 3).length ≠ 3 + 1 := by
  decide

/-- Witness instantiating C8's over-budget branch on a markup string. -/
theorem claimC8_witness :
    safeTruncate "<b>hello world</b>" 7 =
      jsTrim (String.mk
        ((jsTrim (String.mk
          (collapseWs (stripHtml "<b>hello world</b>").toList))).toList.take 7))
        ++ "…" ∧
    (safeTruncate "<b>hello world</b>" 7).length ≤ 7 + 1 :=
  (claimC8 "<b>hello world</b>" 7).2.1 (by decide)

/-- C9: the episode mapping is total by construction in this model, and
every absent or empty field degrades to its default: the title falls
back to `Untitled Episode`, date, description, media URL and type,
image URL, duration and link fall back to the empty string, and an
all-absent item is filtered out rather than failing. -/
theorem claimC9 (toIso : String → String) (idx : Nat) (it : RawItem) :
    (mkRecord toIso idx it).id = idx ∧
    (truthyS it.title = false →
      (mkRecord toIso idx it).title = "Untitled Episode") ∧
    (truthyS it.isoDate = false → truthyS it.pubDate = false →
      (mkRecord toIso idx it).date = "") ∧
    (truthyS it.contentSnippet = false → truthyS it.content = false →
      (mkRecord toIso idx it).description = "") ∧
    (truthyS (encUrl it) = false →
      truthyS ((mcAttrs it).bind MediaAttrs.url) = false →
      truthyS it.link = false →
      (mkRecord toIso idx it).mediaUrl = "" ∧
      (mkRecord toIso idx it).mediaType = "") ∧
    (truthyS (thumbUrl it) = false → it.itunesImage = none →
      (mkRecord toIso idx it).imageUrl = "") ∧
    (truthyS it.duration = false → (mkRecord toIso idx it).duration = "") ∧
    (truthyS it.link = false → (mkRecord toIso idx it).link = "") ∧
    episodes toIso [({} : RawItem)] 1 = [] := by
  refine ⟨rfl, ?_, ?_, ?_, ?_, ?_, ?_, ?_, rfl⟩
  · intro h
    simp [mkRecord, h]
  · intro h1 h2
    simp [mkRecord, h1, jsOrEmpty_of_not_truthy _ h2]
  · intro h1 h2
    have hst : safeTruncate "" 1000 = "" := by decide
    simp [mkRecord, h1, jsOrEmpty_of_not_truthy _ h2, hst]
  · intro h1 h2 h3
    constructor <;>
      simp [mkRecord, pickMedia, h1, h2, jsOrEmpty_of_not_truthy _ h3]
  · intro h1 h2
    simp [mkRecord, pickImageUrl, h1, h2]
  · intro h
    simp [mkRecord, jsOrEmpty_of_not_truthy _ h]
  · intro h
    simp [mkRecord, jsOrEmpty_of_not_truthy _ h]

/-- Witness instantiating C9 at the all-absent item. -/
theorem claimC9_witness :
    (mkRecord (fun s => s) 3 ({} : RawItem)).title = "Untitled Episode" :=
  (claimC9 (fun s => s) 3 ({} : RawItem)).2.1 (by decide)

/-- C10: validation of an accepted URL's canonical form is a fixed
point. The validator's decision depends only on the parsed protocol and
hostname, and its accepted value is the parsed serialization; so if
re-parsing the accepted string `u` yields (as the WHATWG parser
guarantees for its own serialization) the same protocol and hostname
with `u` itself as serialization, the second validation accepts and
returns exactly `u`. -/
theorem claimC10 (allowlist : List String) (pu pu2 : ParsedUrl) (u : String)
    (h : validateRssUrl allowlist (some pu) = .accepted u)
    (hprot : pu2.protocol = pu.protocol)
    (hhost : pu2.hostname = pu.hostname)
    (hser : pu2.serialized = u) :
    validateRssUrl allowlist (some pu2) = .accepted u := by
  simp only [validateRssUrl] at h ⊢
  rw [hprot, hhost, hser]
  split_ifs at h ⊢
  rfl

/-- Witness instantiating C10 at an accepted URL re-parsed to itself. -/
theorem claimC10_witness :
    validateRssUrl []
      (some ⟨"https:", "example.com", "https://example.com/feed"⟩)
      = .accepted "https://example.com/feed" :=
  claimC10 [] ⟨"https:", "example.com", "https://example.com/feed"⟩
    ⟨"https:", "example.com", "https://example.com/feed"⟩
    "https://example.com/feed" (by decide) rfl rfl rfl

end PodTv
